import Mathlib

/-!
Shallow embedding of the markdown section engine of `mddoc-toolkit`
(`src/lib/MarkdownParser.ts`, `src/lib/ChangelogProcessor.ts`), together with
proofs about it.  Text is modelled as `List Char`; JavaScript string indices
become natural-number offsets into that list.  Fallible methods (those that
`throw`) return `Except (List Char) _` carrying the error message.
-/

namespace Mddoc

/-- Whitespace test modelling the character class `\s` of the JavaScript
regular expressions used by the scanner, and the characters removed by
`String.prototype.trim`, restricted to the ASCII range that the tool's
inputs use. -/
def isWS (c : Char) : Bool :=
  c = ' ' || c = '\t' || c = '\n' || c = '\r' || c = '\x0b' || c = '\x0c'

/-- Leading-whitespace removal, the first half of `String.prototype.trim`. -/
def trimLeft (l : List Char) : List Char := l.dropWhile isWS

/-- Trailing-whitespace removal, the second half of `String.prototype.trim`. -/
def trimRight (l : List Char) : List Char := (l.reverse.dropWhile isWS).reverse

/-- Model of `String.prototype.trim`: drop whitespace from both ends. -/
def trim (l : List Char) : List Char := trimRight (trimLeft l)

/-- Number of newline characters emitted for a run of `n` of them by the
replacement `.replace(/\n{3,}/g, '\n\n')` in `formatText`
(`src/lib/MarkdownParser.ts` line 164): a run of three or more newlines
becomes exactly two, shorter runs are kept. -/
def emitNl (n : Nat) : List Char :=
  List.replicate (if 3 ≤ n then 2 else n) '\n'

/-- Accumulator pass behind `collapseNewlines`: `n` counts the newline run
read so far. -/
def collapseAux : Nat → List Char → List Char
  | n, [] => emitNl n
  | n, c :: cs =>
    if c = '\n' then collapseAux (n + 1) cs
    else emitNl n ++ c :: collapseAux 0 cs

/-- Model of `.replace(/\n{3,}/g, '\n\n')`: every maximal run of three or
more consecutive newlines is replaced by exactly two. -/
def collapseNewlines (l : List Char) : List Char := collapseAux 0 l

/-- Model of `MarkdownParser.formatText` (`src/lib/MarkdownParser.ts`
lines 162-166): collapse long newline runs, then trim. -/
def formatText (l : List Char) : List Char := trim (collapseNewlines l)

/-- Whether a list starts with two newline characters. -/
def startsNlNl : List Char → Bool
  | a :: b :: _ => decide (a = '\n') && decide (b = '\n')
  | _ => false

/-- Decidable check for an occurrence of three consecutive newlines; used to
state what `collapseNewlines` guarantees. -/
def hasTriple : List Char → Bool
  | [] => false
  | c :: rest => (decide (c = '\n') && startsNlNl rest) || hasTriple rest

/-! ## Heading scanner

Model of `#extractHeadings` (`src/lib/MarkdownParser.ts` lines 85-112),
which repeatedly applies the regular expression
`/^(#+)\s*(.*)|^(.+)\n(=+|-+)\s*$/gm` with `exec`.  Each `exec` call finds
the leftmost line-start position at or after `lastIndex` where one of the
two anchored alternatives matches, trying the ATX alternative first; the
greedy `\s*` after `(#+)` may span newlines, and in the Setext alternative
`\s*$` may consume trailing blank lines up to a final line boundary.
Line terminators are modelled as `'\n'` only. -/

/-- A heading occurrence as recorded by `#extractHeadings`: level, trimmed
text, and the start/end offsets of the regex match
(`match.index` / `headingRegex.lastIndex`). -/
structure Heading where
  level : Nat
  text : List Char
  startIndex : Nat
  endIndex : Nat
  deriving DecidableEq, Repr, Inhabited

/-- Capture groups of one match of the heading regex: group 1 is the `#`
run, group 2 the ATX text, group 3 the Setext text line, group 4 the
underline run.  `none` means the group did not participate. -/
structure RegexMatch where
  g1 : Option (List Char)
  g2 : Option (List Char)
  g3 : Option (List Char)
  g4 : Option (List Char)
  deriving DecidableEq, Repr

/-- JavaScript truthiness of a capture group: defined and non-empty. -/
def truthy : Option (List Char) → Bool
  | none => false
  | some l => !l.isEmpty

/-- Model of `#determineHeadingLevelFromMatch`
(`src/lib/MarkdownParser.ts` lines 115-123): the `#` count for ATX
matches, 1 or 2 from the underline character for Setext matches, and the
fallback value 0 otherwise. -/
def determineHeadingLevelFromMatch (m : RegexMatch) : Nat :=
  if truthy m.g1 then (m.g1.getD []).length
  else if truthy m.g3 && truthy m.g4 then
    if (trim (m.g4.getD [])).head? = some '=' then 1 else 2
  else 0

/-- Index of the last `'\n'` in a list, if any. -/
def lastNewlineIdx : List Char → Option Nat
  | [] => none
  | c :: cs =>
    match lastNewlineIdx cs with
    | some i => some (i + 1)
    | none => if c = '\n' then some 0 else none

/-- Where `\s*$` ends after the Setext underline run: the greedy-maximal
number of whitespace characters `k` such that position `k` is the end of
the text or a `'\n'`.  `none` when the underline is followed by non-blank
material on its own line, in which case the Setext alternative fails. -/
def setextTailEnd (cs : List Char) : Option Nat :=
  let w := cs.takeWhile isWS
  if w.length = cs.length then some cs.length else lastNewlineIdx w

/-- One attempt of the heading regex at absolute offset `abs`, whose suffix
of the content is `cs`; `abs` is a line-start position.  Returns the
heading (with the level computed through `determineHeadingLevelFromMatch`
and the text trimmed, as in `#extractHeadings` lines 99-100) or `none`
when neither alternative matches here. -/
def matchAt (abs : Nat) (cs : List Char) : Option Heading :=
  match cs with
  | [] => none
  | c :: _ =>
    if c = '#' then
      let hashes := cs.takeWhile (fun x => x = '#')
      let afterHash := cs.drop hashes.length
      let ws := afterHash.takeWhile isWS
      let afterWS := afterHash.drop ws.length
      let text := afterWS.takeWhile (fun x => x ≠ '\n')
      some ⟨determineHeadingLevelFromMatch ⟨some hashes, some text, none, none⟩,
            trim text, abs, abs + hashes.length + ws.length + text.length⟩
    else if c = '\n' then none
    else
      let line1 := cs.takeWhile (fun x => x ≠ '\n')
      match cs.drop line1.length with
      | [] => none
      | _ :: afterNl =>
        match afterNl with
        | [] => none
        | d :: _ =>
          if d = '=' || d = '-' then
            let run := afterNl.takeWhile (fun x => x = d)
            match setextTailEnd (afterNl.drop run.length) with
            | some k =>
              some ⟨determineHeadingLevelFromMatch ⟨none, none, some line1, some run⟩,
                    trim line1, abs, abs + line1.length + 1 + run.length + k⟩
            | none => none
          else none

/-- Scan forward for the first line-start position at which the heading
regex matches: `abs` is the absolute offset of the first character of the
suffix being examined, `atStart` whether `abs` begins a line. -/
def findFrom (abs : Nat) (atStart : Bool) : List Char → Option Heading
  | [] => none
  | c :: rest =>
    if atStart then
      match matchAt abs (c :: rest) with
      | some h => some h
      | none => findFrom (abs + 1) (c = '\n') rest
    else findFrom (abs + 1) (c = '\n') rest

/-- Whether offset `pos` begins a line of `content` (`^` of the `m` flag). -/
def isLineStart (content : List Char) (pos : Nat) : Bool :=
  pos = 0 || content.get? (pos - 1) = some '\n'

/-- One `exec` call of the global heading regex with `lastIndex = pos`. -/
def findMatch (content : List Char) (pos : Nat) : Option Heading :=
  findFrom pos (isLineStart content pos) (content.drop pos)

/-- The `while ((match = headingRegex.exec(content)) !== null)` loop of
`#extractHeadings`; the fuel argument only bounds the iteration count and
never runs out for the initial value, since every match is non-empty and
advances `lastIndex`. -/
def extractHeadingsGo (content : List Char) : Nat → Nat → List Heading
  | 0, _ => []
  | fuel + 1, pos =>
    match findMatch content pos with
    | none => []
    | some h => h :: extractHeadingsGo content fuel h.endIndex

/-- Model of `#extractHeadings` (`src/lib/MarkdownParser.ts` lines 85-112):
all matches of the heading regex over the content, in scan order. -/
def extractHeadings (content : List Char) : List Heading :=
  extractHeadingsGo content (content.length + 1) 0

/-! ## Section extraction -/

/-- A parsed section (`Section` of `src/lib/MarkdownParser.ts` lines 7-11). -/
structure Section where
  level : Nat
  heading : List Char
  body : List Char
  deriving DecidableEq, Repr, Inhabited

/-- Model of `String.prototype.slice(start, end)` for non-negative
arguments: the characters of positions `s ≤ i < e`. -/
def sliceList (cs : List Char) (s e : Nat) : List Char := (cs.take e).drop s

/-- Model of `#extractBody` (`src/lib/MarkdownParser.ts` lines 126-128). -/
def extractBody (content : List Char) (s e : Nat) : List Char :=
  sliceList content s e

/-- Where the body of heading `i` ends, per `#extractSections` line 65:
`headings[index + 1]?.startIndex || content.length`, including the
JavaScript falsiness of a zero start index. -/
def nextHeadingStart (content : List Char) (hs : List Heading) (i : Nat) : Nat :=
  match hs.get? (i + 1) with
  | some h => if h.startIndex = 0 then content.length else h.startIndex
  | none => content.length

/-- Model of `#extractSections` as it stands in `src/lib/MarkdownParser.ts`
lines 59-82: one section per heading, with the trimmed text strictly
between the heading and the next heading as its body. -/
def extractSections (content : List Char) : List Section :=
  let hs := extractHeadings content
  (List.range hs.length).map fun i =>
    let h := hs.getD i default
    ⟨h.level, h.text,
      trim (extractBody content h.endIndex (nextHeadingStart content hs i))⟩

/-- Modelled from the spec: end offset of the raw body of heading `i`, the
start offset of `headings[i+1]` if it exists, else the text length
(spec 4.2 step 1). -/
def specBodyEnd (content : List Char) (hs : List Heading) (i : Nat) : Nat :=
  match hs.get? (i + 1) with
  | some h => h.startIndex
  | none => content.length

/-- Modelled from the spec: the trimmed raw body of heading `i`, the text
strictly between that heading and the next one (spec 4.2 step 2). -/
def rawBodyAt (content : List Char) (hs : List Heading) (i : Nat) : List Char :=
  match hs.get? i with
  | none => []
  | some h => trim (sliceList content h.endIndex (specBodyEnd content hs i))

/-- Modelled from the spec: the indexed headings absorbed into the section
of heading `i`, namely the run of headings after `i` whose level exceeds
`lvl`, stopping at the first heading of level at most `lvl`
(spec 4.2 step 3). -/
def childrenOf (hs : List Heading) (i : Nat) (lvl : Nat) : List (Nat × Heading) :=
  (hs.enum.drop (i + 1)).takeWhile fun p => lvl < p.2.level

/-- Modelled from the spec: the block appended to a parent body for one
absorbed subsection — a blank line, a fixed level-2 ATX marker with the
subsection's heading text, a blank line, then the subsection's own raw
body (spec 4.2 step 3). -/
def renderChild (content : List Char) (hs : List Heading) (p : Nat × Heading) :
    List Char :=
  '\n' :: '\n' :: '#' :: '#' :: ' ' :: (p.2.text ++ '\n' :: '\n' :: rawBodyAt content hs p.1)

/-- Modelled from the spec: the `#extractSections` of the final
`MarkdownParser` variant, which is not under `src/` (only its tests in
`src/tests/MarkdownParser.test.ts` and its subclass callers are): each
heading yields a section whose body is its own trimmed raw body followed
by the rendered blocks of the immediately following deeper headings, the
whole trimmed again (spec 4.2 steps 1-4). -/
def extractSectionsAbsorb (content : List Char) : List Section :=
  let hs := extractHeadings content
  (List.range hs.length).map fun i =>
    let h := hs.getD i default
    ⟨h.level, h.text,
      trim (rawBodyAt content hs i ++
        ((childrenOf hs i h.level).map (renderChild content hs)).flatten)⟩

/-! ## Dictionaries and keyword queries -/

/-- A keyword dictionary (`Dictionary` of `src/lib/HeadingDictionary.ts`):
section types mapped to keyword lists.  JavaScript objects are modelled as
association lists in which a later binding for a key shadows an earlier
one, which makes the object spread `{...a, ...b}` plain concatenation. -/
abbrev Dict : Type := List (List Char × List (List Char))

/-- Property lookup on the association-list model of a JavaScript object:
the last binding for the key wins. -/
def dlookup (d : Dict) (k : List Char) : Option (List (List Char)) :=
  match d with
  | [] => none
  | (k', v) :: rest =>
    match dlookup rest k with
    | some v' => some v'
    | none => if k' = k then some v else none

/-- Model of `#mergeDictionaries` (`src/lib/MarkdownParser.ts` lines
29-36): fold the loaded dictionaries left to right with object spread,
starting from the empty object.  Dictionary file loading is out of scope;
the function receives the already-loaded dictionaries. -/
def mergeDictionaries (dicts : List Dict) : Dict :=
  dicts.foldl (fun acc d => acc ++ d) []

/-- Lowercasing of `String.prototype.toLowerCase`, character by character. -/
def toLower (l : List Char) : List Char := l.map Char.toLower

/-- Model of `String.prototype.includes`: `containsSub s pat` is true when
`pat` occurs contiguously inside `s`. -/
def containsSub : List Char → List Char → Bool
  | [], pat => pat.isEmpty
  | c :: rest, pat => pat.isPrefixOf (c :: rest) || containsSub rest pat

/-- The predicate of the `find` callback in
`getSectionByKeywordsInDictionary` (`src/lib/MarkdownParser.ts` lines
138-142): some keyword is a substring of the lowercased heading.  Note
that the keyword itself is not lowercased. -/
def sectionMatchesDict (keywords : List (List Char)) (sec : Section) : Bool :=
  keywords.any fun kw => containsSub (toLower sec.heading) kw

/-- Model of `getSectionByKeywordsInDictionary`
(`src/lib/MarkdownParser.ts` lines 133-143) for a parser constructed with
a dictionary: the first section whose lowercased heading contains some
keyword of the section type, `none` when there is no match.  The keyword
list is `dictionary[sectionType] || []`. -/
def getSectionByKeywordsInDictionary (dict : Dict) (sections : List Section)
    (sectionType : List Char) : Option Section :=
  let keywords := (dlookup dict sectionType).getD []
  sections.find? (sectionMatchesDict keywords)

/-- Model of `getSectionWithTemplate` (`src/lib/MarkdownParser.ts` lines
146-157): the dictionary match as a `{title, body}` pair with the body
formatted, or the given error message when nothing matches. -/
def getSectionWithTemplate (dict : Dict) (sections : List Section)
    (sectionType errorMessage : List Char) :
    Except (List Char) (List Char × List Char) :=
  match getSectionByKeywordsInDictionary dict sections sectionType with
  | none => .error errorMessage
  | some sec => .ok (sec.heading, formatText sec.body)

/-- Model of `getSectionsByHeading` (`src/lib/MarkdownParser.ts` lines
212-222): all sections whose lowercased heading contains the lowercased
keyword, an error naming the keyword when there are none. -/
def getSectionsByHeading (sections : List Section) (keyword : List Char) :
    Except (List Char) (List Section) :=
  let ms := sections.filter fun sec =>
    containsSub (toLower sec.heading) (toLower keyword)
  if ms.isEmpty then
    .error ("No heading found with provided keyword: '".data ++ keyword ++ "'".data)
  else .ok ms

/-! ## Changelog range extraction -/

/-- Split a character list at the dots, for version strings. -/
def splitOnDot : List Char → List (List Char)
  | [] => [[]]
  | c :: cs =>
    let rest := splitOnDot cs
    if c = '.' then [] :: rest
    else
      match rest with
      | [] => [[c]]
      | p :: ps => (c :: p) :: ps

/-- Digits of a version component read as a natural number. -/
def digitsToNat (l : List Char) : Nat :=
  l.foldl (fun acc c => acc * 10 + (c.toNat - '0'.toNat)) 0

/-- Strict lexicographic order on number lists, for version components. -/
def ltLexNat : List Nat → List Nat → Bool
  | [], [] => false
  | [], _ :: _ => true
  | _ :: _, [] => false
  | a :: as, b :: bs => if a < b then true else if b < a then false else ltLexNat as bs

/-- Modelled from the spec: the strict "semantically less than" comparison
the `semver` third-party package performs for plain numeric
`major.minor.patch` versions (spec 4.5 preprocessing); the package itself
is an external collaborator outside the repository. -/
def semverLt (a b : List Char) : Bool :=
  ltLexNat ((splitOnDot a).map digitsToNat) ((splitOnDot b).map digitsToNat)

/-- The `for (const section of sections)` loop of
`getUpdatesBetweenVersions` (`src/lib/ChangelogProcessor.ts` lines
138-152): the range flag becomes true at a section whose heading contains
the start label, sections are collected while it is true, and the loop
breaks (inclusively) at the first section whose heading contains the end
label, whether or not the flag is set yet. -/
def collectUpdates (startV endV : List Char) :
    List Section → Bool → List Section
  | [], _ => []
  | sec :: rest, inRange =>
    let inRange' := inRange || containsSub sec.heading startV
    let here := if inRange' then [sec] else []
    if containsSub sec.heading endV then here
    else here ++ collectUpdates startV endV rest inRange'

/-- Model of `getUpdatesBetweenVersions` (`src/lib/ChangelogProcessor.ts`
lines 126-161): normalize the argument order with `semver.lt`, scan the
sections, and throw when nothing was collected. -/
def getUpdatesBetweenVersions (sections : List Section)
    (startVersion endVersion : List Char) : Except (List Char) (List Section) :=
  let p := if semverLt startVersion endVersion then (endVersion, startVersion)
           else (startVersion, endVersion)
  let updates := collectUpdates p.1 p.2 sections false
  if updates.isEmpty then
    .error ("No updates found between versions ".data ++ p.1 ++
      " and ".data ++ p.2)
  else .ok updates

/-- Stated from the claim's words, for comparison with the code: the
keyword occurs case-insensitively as a substring of the heading. -/
def occursCaseInsensitive (kw h : List Char) : Bool :=
  containsSub (toLower h) (toLower kw)

/-- The condition under which the scan of `getUpdatesBetweenVersions`
collects nothing (for order-normalized labels): walking the sections, a
section containing the end label is reached — terminating the scan — or
the list ends, before any section containing the start label is seen. -/
def startUnreached (startV endV : List Char) : List Section → Bool
  | [] => true
  | sec :: rest =>
    if containsSub sec.heading startV then false
    else if containsSub sec.heading endV then true
    else startUnreached startV endV rest

/-! ## Dictionary merge lemmas -/

theorem dlookup_append (a b : Dict) (k : List Char) :
    dlookup (a ++ b) k = (dlookup b k).or (dlookup a k) := by
  induction a with
  | nil => simp [dlookup, Option.or_none]
  | cons e a' ih =>
    obtain ⟨k', v⟩ := e
    rw [List.cons_append, dlookup, ih, dlookup]
    cases hb : dlookup b k with
    | some w => rfl
    | none =>
      cases ha : dlookup a' k with
      | some w => rfl
      | none => rfl

theorem mergeDictionaries_eq_flatten (dicts : List Dict) :
    mergeDictionaries dicts = dicts.flatten := by
  unfold mergeDictionaries
  suffices h : ∀ (acc : Dict), dicts.foldl (fun acc d => acc ++ d) acc = acc ++ dicts.flatten by
    simpa using h []
  induction dicts with
  | nil => intro acc; simp
  | cons d rest ih =>
    intro acc
    simp only [List.foldl_cons, List.flatten_cons, ih, List.append_assoc]

theorem dlookup_flatten_none {dicts : List Dict} {k : List Char}
    (h : ∀ d ∈ dicts, dlookup d k = none) : dlookup dicts.flatten k = none := by
  induction dicts with
  | nil => rfl
  | cons d rest ih =>
    rw [List.flatten_cons, dlookup_append, ih (fun d' hd' => h d' (List.mem_cons_of_mem _ hd')),
      h d (List.mem_cons_self _ _)]
    rfl

/-- The claim C8: merging dictionary sources left to right makes each key
map to exactly the keyword array of the last source defining it — whole
array replacement, never concatenation — and a key defined by a single
source keeps that source's array unchanged (the statement with
`later = []` or `earlier = []`). -/
theorem mergeDictionaries_last_wins (earlier later : List Dict) (d : Dict)
    (k : List Char) (v : List (List Char))
    (hlater : ∀ d' ∈ later, dlookup d' k = none) (hd : dlookup d k = some v) :
    dlookup (mergeDictionaries (earlier ++ d :: later)) k = some v := by
  rw [mergeDictionaries_eq_flatten, List.flatten_append, List.flatten_cons,
    dlookup_append, dlookup_append, dlookup_flatten_none hlater, hd]
  rfl

/-- Witness for C8: three sources, the middle one the last to define the
key `license`; the merged dictionary carries its array, replacing the
earlier array rather than concatenating. -/
theorem mergeDictionaries_last_wins_witness :
    dlookup (mergeDictionaries
      ([[("license".data, ["license".data])]] ++
        [("license".data, ["licence".data, "mit".data])] ::
        [[("usage".data, ["usage".data])]])) "license".data =
      some ["licence".data, "mit".data] :=
  mergeDictionaries_last_wins _ _ _ _ _ (by decide) (by decide)

/-! ## Keyword query lemmas -/

theorem find?_first_characterization (p : α → Bool) (l : List α) (a : α)
    (h : l.find? p = some a) :
    ∃ i : Fin l.length, l.get i = a ∧ p a = true ∧
      ∀ j : Fin l.length, (j : Nat) < (i : Nat) → p (l.get j) = false := by
  induction l with
  | nil => exact absurd h (by simp)
  | cons c cs ih =>
    by_cases hc : p c
    · rw [List.find?_cons_of_pos _ hc] at h
      injection h with h
      subst h
      exact ⟨⟨0, by simp⟩, rfl, hc,
        fun j hj => (Nat.not_lt_zero (j : Nat) (by simpa using hj)).elim⟩
    · rw [List.find?_cons_of_neg _ (by simpa using hc)] at h
      obtain ⟨i, hget, hp, hfirst⟩ := ih h
      refine ⟨⟨i + 1, by simpa using i.isLt⟩, hget, hp, ?_⟩
      intro j hj
      match j with
      | ⟨0, _⟩ => simpa using hc
      | ⟨j' + 1, hj'⟩ =>
        exact hfirst ⟨j', by simpa using hj'⟩ (by simpa using hj)

/-- The claim C10: the dictionary query returns at most one section,
namely the earliest section in document order whose lowercased heading
contains some keyword of the section type; all later matches are ignored,
and with no match at all it returns `none` instead of failing. -/
theorem getSectionByKeywordsInDictionary_first (dict : Dict)
    (ss : List Section) (t : List Char) :
    (∀ sec, getSectionByKeywordsInDictionary dict ss t = some sec →
      ∃ i : Fin ss.length, ss.get i = sec ∧
        sectionMatchesDict ((dlookup dict t).getD []) sec = true ∧
        ∀ j : Fin ss.length, (j : Nat) < (i : Nat) →
          sectionMatchesDict ((dlookup dict t).getD []) (ss.get j) = false) ∧
    ((∀ sec ∈ ss, sectionMatchesDict ((dlookup dict t).getD []) sec = false) →
      getSectionByKeywordsInDictionary dict ss t = none) := by
  constructor
  · intro sec h
    exact find?_first_characterization _ _ _ h
  · intro hall
    exact List.find?_eq_none.mpr fun sec hs => by simp [hall sec hs]

/-- Witness for C10: on a two-section document where both sections match
the `usage` keywords, the earlier section is returned and the later one is
ignored; on the same document the `license` keywords match nothing and the
query returns `none` without failing. -/
theorem getSectionByKeywordsInDictionary_first_witness :
    (∃ i : Fin ([⟨2, "usage hints".data, "a".data⟩,
        ⟨2, "more usage".data, "b".data⟩] : List Section).length,
      ([⟨2, "usage hints".data, "a".data⟩,
        ⟨2, "more usage".data, "b".data⟩] : List Section).get i =
          ⟨2, "usage hints".data, "a".data⟩ ∧
      sectionMatchesDict ((dlookup [("usage".data, ["usage".data])] "usage".data).getD [])
        ⟨2, "usage hints".data, "a".data⟩ = true ∧
      ∀ j : Fin ([⟨2, "usage hints".data, "a".data⟩,
          ⟨2, "more usage".data, "b".data⟩] : List Section).length,
        (j : Nat) < (i : Nat) →
        sectionMatchesDict ((dlookup [("usage".data, ["usage".data])] "usage".data).getD [])
          (([⟨2, "usage hints".data, "a".data⟩,
            ⟨2, "more usage".data, "b".data⟩] : List Section).get j) = false) ∧
    getSectionByKeywordsInDictionary [("usage".data, ["usage".data])]
      [⟨2, "usage hints".data, "a".data⟩, ⟨2, "more usage".data, "b".data⟩]
      "license".data = none := by
  constructor
  · exact (getSectionByKeywordsInDictionary_first
      [("usage".data, ["usage".data])]
      [⟨2, "usage hints".data, "a".data⟩, ⟨2, "more usage".data, "b".data⟩]
      "usage".data).1 ⟨2, "usage hints".data, "a".data⟩ (by decide)
  · exact (getSectionByKeywordsInDictionary_first
      [("usage".data, ["usage".data])]
      [⟨2, "usage hints".data, "a".data⟩, ⟨2, "more usage".data, "b".data⟩]
      "license".data).2 (by decide)

/-- Counterexample to C5 as stated: the dictionary keyword `API` occurs
case-insensitively in the heading `api docs`, yet the query finds nothing,
because the code lowercases only the heading and compares the keyword
verbatim. -/
theorem claim_C5_counterexample :
    occursCaseInsensitive "API".data "api docs".data = true ∧
    getSectionByKeywordsInDictionary [("docs".data, ["API".data])]
      [⟨1, "api docs".data, "body".data⟩] "docs".data = none := by
  decide

/-- The claim C5 as amended: keyword matching consults only the heading,
never the body — the match predicate is a function of the heading alone,
so documents with the same heading sequence produce matches for the same
headings — and dictionary matching tests the verbatim keyword against the
lowercased heading, which agrees with case-insensitive occurrence exactly
when the keyword is already lowercase. -/
theorem keywordMatching_heading_only :
    (∀ (kws : List (List Char)) (sec sec' : Section), sec.heading = sec'.heading →
      sectionMatchesDict kws sec = sectionMatchesDict kws sec') ∧
    (∀ (dict : Dict) (t : List Char) (ss ts : List Section),
      ss.map Section.heading = ts.map Section.heading →
      Option.map Section.heading (getSectionByKeywordsInDictionary dict ss t) =
        Option.map Section.heading (getSectionByKeywordsInDictionary dict ts t)) ∧
    (∀ kw h : List Char, toLower kw = kw →
      containsSub (toLower h) kw = occursCaseInsensitive kw h) := by
  refine ⟨?_, ?_, ?_⟩
  · intro kws sec sec' hh
    unfold sectionMatchesDict
    rw [hh]
  · intro dict t ss ts hmap
    unfold getSectionByKeywordsInDictionary
    induction ss generalizing ts with
    | nil =>
      cases ts with
      | nil => rfl
      | cons b bs => exact absurd hmap (by simp)
    | cons a as ih =>
      cases ts with
      | nil => exact absurd hmap (by simp)
      | cons b bs =>
        simp only [List.map_cons, List.cons.injEq] at hmap
        obtain ⟨h1, h2⟩ := hmap
        rw [List.find?_cons, List.find?_cons]
        have hpred : sectionMatchesDict ((dlookup dict t).getD []) a =
            sectionMatchesDict ((dlookup dict t).getD []) b := by
          unfold sectionMatchesDict
          rw [h1]
        rw [← hpred]
        cases hp : sectionMatchesDict ((dlookup dict t).getD []) a with
        | true => simpa using h1
        | false => exact ih bs h2
  · intro kw h hkw
    unfold occursCaseInsensitive
    rw [hkw]

/-- Witness for C5 amended: two single-section documents with the same
heading and different bodies yield matches with the same heading. -/
theorem keywordMatching_heading_only_witness :
    Option.map Section.heading (getSectionByKeywordsInDictionary
      [("usage".data, ["usage".data])] [⟨2, "Usage".data, "first body".data⟩] "usage".data) =
    Option.map Section.heading (getSectionByKeywordsInDictionary
      [("usage".data, ["usage".data])] [⟨2, "Usage".data, "other".data⟩] "usage".data) :=
  keywordMatching_heading_only.2.1 [("usage".data, ["usage".data])] "usage".data
    [⟨2, "Usage".data, "first body".data⟩] [⟨2, "Usage".data, "other".data⟩] (by decide)

/-! ## Lemmas about trimming -/

theorem dropWhile_dropWhile (p : α → Bool) (l : List α) :
    List.dropWhile p (List.dropWhile p l) = List.dropWhile p l := by
  induction l with
  | nil => rfl
  | cons c cs ih =>
    by_cases h : p c
    · simp [List.dropWhile, h, ih]
    · simp [List.dropWhile, h]

theorem head?_dropWhile_false {p : α → Bool} {l : List α} {c : α}
    (h : (List.dropWhile p l).head? = some c) : p c = false := by
  have := List.head?_dropWhile_not p l
  rw [h] at this
  exact this

theorem dropWhile_eq_self_of_head {p : α → Bool} {l : List α}
    (h : ∀ c, l.head? = some c → p c = false) : List.dropWhile p l = l := by
  cases l with
  | nil => rfl
  | cons c cs => simp [List.dropWhile, h c rfl]

theorem trimRight_trimRight (l : List Char) : trimRight (trimRight l) = trimRight l := by
  unfold trimRight
  rw [List.reverse_reverse, dropWhile_dropWhile]

theorem trimRight_prefix_of (l : List Char) : trimRight l <+: l := by
  rcases @List.dropWhile_suffix Char l.reverse isWS with ⟨t, ht⟩
  refine ⟨t.reverse, ?_⟩
  have := congrArg List.reverse ht
  simpa [trimRight] using this

theorem head?_trimRight (l : List Char) (h : trimRight l ≠ []) :
    (trimRight l).head? = l.head? := by
  rcases trimRight_prefix_of l with ⟨t, ht⟩
  cases hr : trimRight l with
  | nil => exact absurd hr h
  | cons c cs => rw [← ht, hr]; rfl

theorem head?_trim_false {l : List Char} {c : Char}
    (h : (trim l).head? = some c) : isWS c = false := by
  unfold trim at h
  have hne : trimRight (trimLeft l) ≠ [] := by
    intro he
    rw [he] at h
    exact Option.noConfusion h
  rw [head?_trimRight _ hne] at h
  exact head?_dropWhile_false h

theorem trimLeft_eq_self_of_head {l : List Char}
    (h : ∀ c, l.head? = some c → isWS c = false) : trimLeft l = l :=
  dropWhile_eq_self_of_head h

theorem trim_trim (l : List Char) : trim (trim l) = trim l := by
  have h1 : trimLeft (trim l) = trim l :=
    trimLeft_eq_self_of_head fun c hc => head?_trim_false hc
  show trimRight (trimLeft (trim l)) = trim l
  rw [h1]
  unfold trim
  exact trimRight_trimRight _

theorem getLast?_trim_false {l : List Char} {c : Char}
    (h : (trim l).getLast? = some c) : isWS c = false := by
  rw [List.getLast?_eq_head?_reverse] at h
  have : (trim l).reverse = List.dropWhile isWS (trimLeft l).reverse := by
    simp [trim, trimRight]
  rw [this] at h
  exact head?_dropWhile_false h

theorem trimLeft_append_of_head {u : List Char} (v : List Char) {c : Char}
    (hu : u.head? = some c) (hc : isWS c = false) : trimLeft (u ++ v) = u ++ v := by
  cases u with
  | nil => exact absurd hu (by simp)
  | cons a as =>
    have : a = c := by simpa using hu
    subst this
    simp [trimLeft, List.dropWhile, hc]

theorem trimRight_append_of_getLast {v : List Char} (u : List Char) {c : Char}
    (hv : v.getLast? = some c) (hc : isWS c = false) :
    trimRight (u ++ v) = u ++ v := by
  unfold trimRight
  rw [List.reverse_append]
  have hvr : v.reverse.head? = some c := by
    rw [← List.getLast?_eq_head?_reverse]; exact hv
  have hd : List.dropWhile isWS (v.reverse ++ u.reverse) = v.reverse ++ u.reverse := by
    apply dropWhile_eq_self_of_head
    intro x hx
    rw [List.head?_append, hvr] at hx
    have : c = x := by simpa [Option.or] using hx
    exact this ▸ hc
  rw [hd, List.reverse_append, List.reverse_reverse, List.reverse_reverse]

theorem trim_append_eq_self {u v : List Char} {c d : Char}
    (hu : u.head? = some c) (hc : isWS c = false)
    (hv : (u ++ v).getLast? = some d) (hd : isWS d = false) :
    trim (u ++ v) = u ++ v := by
  unfold trim
  rw [trimLeft_append_of_head v hu hc]
  have := trimRight_append_of_getLast [] hv hd
  simpa using this

/-! ## Lemmas about newline collapsing -/

theorem startsNlNl_cons_of_ne {c : Char} (l : List Char) (h : c ≠ '\n') :
    startsNlNl (c :: l) = false := by
  cases l with
  | nil => rfl
  | cons b t => simp [startsNlNl, h]

theorem startsNlNl_nlcons_of_ne {c : Char} (l : List Char) (h : c ≠ '\n') :
    startsNlNl ('\n' :: c :: l) = false := by
  simp [startsNlNl, h]

theorem startsNlNl_append {x : List Char} (y : List Char)
    (h : startsNlNl x = true) : startsNlNl (x ++ y) = true := by
  cases x with
  | nil => exact absurd h (by simp [startsNlNl])
  | cons a t =>
    cases t with
    | nil => exact absurd h (by simp [startsNlNl])
    | cons b t2 =>
      simp [startsNlNl] at h ⊢
      exact h

theorem hasTriple_append_right {x y : List Char}
    (h : hasTriple (x ++ y) = false) : hasTriple y = false := by
  induction x with
  | nil => exact h
  | cons c cs ih =>
    rw [List.cons_append, hasTriple, Bool.or_eq_false_iff] at h
    exact ih h.2

theorem hasTriple_append_left {x y : List Char}
    (h : hasTriple (x ++ y) = false) : hasTriple x = false := by
  induction x with
  | nil => rfl
  | cons c cs ih =>
    rw [List.cons_append, hasTriple, Bool.or_eq_false_iff] at h
    rw [hasTriple, Bool.or_eq_false_iff]
    refine ⟨?_, ih h.2⟩
    rcases Bool.and_eq_false_iff.mp h.1 with h1 | h1
    · exact Bool.and_eq_false_iff.mpr (Or.inl h1)
    · refine Bool.and_eq_false_iff.mpr (Or.inr ?_)
      by_cases hs : startsNlNl cs = true
      · exact absurd (startsNlNl_append y hs) (by simp [h1])
      · simpa using hs

theorem hasTriple_replicate_le {n : Nat} {rest : List Char}
    (h : hasTriple (List.replicate n '\n' ++ rest) = false) : n ≤ 2 := by
  by_contra hn
  push_neg at hn
  obtain ⟨k, rfl⟩ : ∃ k, n = k + 3 := ⟨n - 3, by omega⟩
  have he : List.replicate (k + 3) '\n' ++ rest =
      '\n' :: '\n' :: '\n' :: (List.replicate k '\n' ++ rest) := by
    simp [List.replicate_succ]
  rw [he] at h
  simp [hasTriple, startsNlNl] at h

theorem replicate_cons_shift (n : Nat) (c : α) (l : List α) :
    List.replicate n c ++ c :: l = List.replicate (n + 1) c ++ l := by
  rw [List.replicate_succ']
  simp

theorem hasTriple_replicate_two : hasTriple (List.replicate 2 '\n') = false := by
  decide

theorem emitNl_of_le {n : Nat} (h : n ≤ 2) : emitNl n = List.replicate n '\n' := by
  unfold emitNl
  rw [if_neg (by omega)]

theorem hasTriple_replicate_cons {k : Nat} {c : Char} {l : List Char}
    (hk : k ≤ 2) (hc : c ≠ '\n') :
    hasTriple (List.replicate k '\n' ++ c :: l) = hasTriple l := by
  interval_cases k
  · simp [hasTriple, startsNlNl_cons_of_ne _ hc, hc]
  · simp [List.replicate_succ, hasTriple, startsNlNl_cons_of_ne _ hc, hc]
  · simp [List.replicate_succ, hasTriple, startsNlNl_cons_of_ne _ hc,
      startsNlNl_nlcons_of_ne _ hc, hc]

theorem collapseAux_eq_self : ∀ (s : List Char) (n : Nat),
    hasTriple (List.replicate n '\n' ++ s) = false →
    collapseAux n s = List.replicate n '\n' ++ s := by
  intro s
  induction s with
  | nil =>
    intro n h
    have hn2 := hasTriple_replicate_le h
    rw [List.append_nil]
    simp [collapseAux, emitNl_of_le hn2]
  | cons c cs ih =>
    intro n h
    by_cases hc : c = '\n'
    · subst hc
      rw [collapseAux, if_pos rfl]
      rw [replicate_cons_shift] at h ⊢
      exact ih (n + 1) h
    · rw [collapseAux, if_neg hc]
      have hn : n ≤ 2 := hasTriple_replicate_le h
      have hcs : hasTriple cs = false := by
        have h2 := hasTriple_append_right h
        rw [hasTriple, Bool.or_eq_false_iff] at h2
        exact h2.2
      rw [emitNl_of_le hn, ih 0 (by simpa using hcs)]
      simp

theorem hasTriple_emitNl (n : Nat) : hasTriple (emitNl n) = false := by
  unfold emitNl
  split
  · exact hasTriple_replicate_two
  · rename_i h
    have : n ≤ 2 := by omega
    interval_cases n <;> decide

theorem hasTriple_collapseAux : ∀ (s : List Char) (n : Nat),
    hasTriple (collapseAux n s) = false := by
  intro s
  induction s with
  | nil => intro n; exact hasTriple_emitNl n
  | cons c cs ih =>
    intro n
    by_cases hc : c = '\n'
    · subst hc; rw [collapseAux, if_pos rfl]; exact ih (n + 1)
    · rw [collapseAux, if_neg hc]
      have hk : (if 3 ≤ n then 2 else n) ≤ 2 := by split <;> omega
      rw [show emitNl n = List.replicate (if 3 ≤ n then 2 else n) '\n' from rfl]
      rw [hasTriple_replicate_cons hk hc]
      exact ih 0

theorem hasTriple_trim {l : List Char} (h : hasTriple l = false) :
    hasTriple (trim l) = false := by
  have h1 : hasTriple (trimLeft l) = false := by
    rcases @List.dropWhile_suffix Char l isWS with ⟨t, ht⟩
    have h2 := h
    rw [← ht] at h2
    exact hasTriple_append_right h2
  rcases trimRight_prefix_of (trimLeft l) with ⟨t, ht⟩
  have h3 := h1
  rw [← ht] at h3
  exact hasTriple_append_left h3

/-- The claim C9: `formatText` is idempotent.  `formatText` first replaces
every run of three or more newlines by exactly two and then trims, so a
second application finds no long newline run and nothing left to trim. -/
theorem formatText_idem (s : List Char) :
    formatText (formatText s) = formatText s := by
  unfold formatText
  have h1 : hasTriple (collapseNewlines s) = false := hasTriple_collapseAux s 0
  have h2 : hasTriple (trim (collapseNewlines s)) = false := hasTriple_trim h1
  have h3 : collapseNewlines (trim (collapseNewlines s)) = trim (collapseNewlines s) := by
    unfold collapseNewlines
    have := collapseAux_eq_self (trim (collapseNewlines s)) 0 (by simpa using h2)
    simpa using this
  rw [h3, trim_trim]

/-! ## Heading scanner lemmas -/

theorem determine_A_eq {g1 g2 : List Char} (h1 : g1 ≠ []) :
    determineHeadingLevelFromMatch ⟨some g1, some g2, none, none⟩ = g1.length := by
  have t1 : truthy (some g1) = true := by
    unfold truthy
    simpa using h1
  unfold determineHeadingLevelFromMatch
  simp [t1]

theorem determine_B_pos {g3 g4 : List Char} (h3 : g3 ≠ []) (h4 : g4 ≠ []) :
    1 ≤ determineHeadingLevelFromMatch ⟨none, none, some g3, some g4⟩ := by
  have t3 : truthy (some g3) = true := by
    unfold truthy
    simpa using h3
  have t4 : truthy (some g4) = true := by
    unfold truthy
    simpa using h4
  unfold determineHeadingLevelFromMatch
  rw [show truthy none = false from rfl]
  simp only [t3, t4, Bool.and_self, Bool.false_eq_true, if_false, if_true]
  split <;> omega

theorem matchAt_spec {abs : Nat} {cs : List Char} {h : Heading}
    (hm : matchAt abs cs = some h) :
    h.startIndex = abs ∧ abs < h.endIndex ∧ 1 ≤ h.level := by
  cases cs with
  | nil => exact absurd hm (by simp [matchAt])
  | cons c rest =>
    by_cases hc : c = '#'
    · subst hc
      simp only [matchAt, if_pos rfl] at hm
      injection hm with hm
      subst hm
      have hne : ('#' :: rest).takeWhile (fun x => x = '#') ≠ [] := by
        rw [List.takeWhile_cons]
        simp
      have hlen : 1 ≤ (('#' :: rest).takeWhile (fun x => x = '#')).length :=
        List.length_pos.mpr hne
      refine ⟨rfl, ?_, ?_⟩
      · dsimp only
        omega
      · dsimp only
        rw [determine_A_eq hne]
        exact hlen
    · by_cases hn : c = '\n'
      · exact absurd hm (by simp [matchAt, hc, hn])
      · simp only [matchAt, if_neg hc, if_neg hn] at hm
        split at hm
        · exact absurd hm (by simp)
        · split at hm
          · exact absurd hm (by simp)
          · split at hm
            · split at hm
              · injection hm with hm
                subst hm
                refine ⟨rfl, ?_, ?_⟩
                · dsimp only
                  omega
                · dsimp only
                  apply determine_B_pos
                  · rw [List.takeWhile_cons, if_pos (by simpa using hn)]
                    simp
                  · rw [List.takeWhile_cons, if_pos (by simp)]
                    simp
              · exact absurd hm (by simp)
            · exact absurd hm (by simp)

theorem findFrom_spec : ∀ (cs : List Char) (abs : Nat) (b : Bool) (h : Heading),
    findFrom abs b cs = some h →
    abs ≤ h.startIndex ∧ h.startIndex < h.endIndex ∧ 1 ≤ h.level := by
  intro cs
  induction cs with
  | nil => intro abs b h hf; exact absurd hf (by simp [findFrom])
  | cons c rest ih =>
    intro abs b h hf
    rw [findFrom] at hf
    by_cases hb : b
    · rw [if_pos hb] at hf
      cases hm : matchAt abs (c :: rest) with
      | some h0 =>
        rw [hm] at hf
        injection hf with hf
        subst hf
        obtain ⟨h1, h2, h3⟩ := matchAt_spec hm
        exact ⟨le_of_eq h1.symm, h1 ▸ h2, h3⟩
      | none =>
        rw [hm] at hf
        obtain ⟨h1, h2, h3⟩ := ih (abs + 1) (c = '\n') h hf
        exact ⟨by omega, h2, h3⟩
    · rw [if_neg hb] at hf
      obtain ⟨h1, h2, h3⟩ := ih (abs + 1) (c = '\n') h hf
      exact ⟨by omega, h2, h3⟩

theorem findMatch_spec {content : List Char} {pos : Nat} {h : Heading}
    (hf : findMatch content pos = some h) :
    pos ≤ h.startIndex ∧ h.startIndex < h.endIndex ∧ 1 ≤ h.level :=
  findFrom_spec _ pos _ h hf

theorem extractHeadingsGo_ge : ∀ (content : List Char) (fuel pos : Nat)
    (h : Heading), h ∈ extractHeadingsGo content fuel pos →
    pos ≤ h.startIndex ∧ h.startIndex < h.endIndex ∧ 1 ≤ h.level := by
  intro content fuel
  induction fuel with
  | zero => intro pos h hm; exact absurd hm (by simp [extractHeadingsGo])
  | succ fuel ih =>
    intro pos h hm
    rw [extractHeadingsGo] at hm
    cases hf : findMatch content pos with
    | none => rw [hf] at hm; exact absurd hm (by simp)
    | some h0 =>
      rw [hf] at hm
      rcases List.mem_cons.mp hm with rfl | hmem
      · exact findMatch_spec hf
      · obtain ⟨g1, g2, g3⟩ := ih h0.endIndex h hmem
        obtain ⟨f1, f2, _⟩ := findMatch_spec hf
        exact ⟨by omega, g2, g3⟩

theorem extractHeadingsGo_chain (content : List Char) :
    ∀ (fuel pos : Nat), List.Chain'
      (fun a b => a.startIndex < b.startIndex) (extractHeadingsGo content fuel pos) := by
  intro fuel
  induction fuel with
  | zero => intro pos; simp [extractHeadingsGo]
  | succ fuel ih =>
    intro pos
    rw [extractHeadingsGo]
    cases hf : findMatch content pos with
    | none => simp
    | some h0 =>
      rw [List.chain'_cons']
      refine ⟨?_, ih h0.endIndex⟩
      intro y hy
      have hmem : y ∈ extractHeadingsGo content fuel h0.endIndex := by
        cases hl : extractHeadingsGo content fuel h0.endIndex with
        | nil => rw [hl] at hy; exact absurd hy (by simp)
        | cons z t =>
          rw [hl] at hy
          have hyz : y = z := by
            have := hy
            simp only [List.head?_cons, Option.mem_def, Option.some.injEq] at this
            exact this.symm
          exact hyz ▸ List.mem_cons_self z t
      obtain ⟨g1, _, _⟩ := extractHeadingsGo_ge content fuel h0.endIndex y hmem
      obtain ⟨_, f2, _⟩ := findMatch_spec hf
      omega

theorem extractHeadings_chain (content : List Char) :
    List.Chain' (fun a b => a.startIndex < b.startIndex) (extractHeadings content) :=
  extractHeadingsGo_chain content (content.length + 1) 0

theorem extractSections_getElem? (content : List Char) (i : Nat) :
    (extractSections content)[i]?.map Section.heading =
      (extractHeadings content)[i]?.map Heading.text ∧
    (extractSections content)[i]?.map Section.level =
      (extractHeadings content)[i]?.map Heading.level := by
  unfold extractSections
  rw [List.getElem?_map]
  by_cases hi : i < (extractHeadings content).length
  · rw [List.getElem?_range hi,
      List.getElem?_eq_getElem hi]
    have hg : (extractHeadings content).getD i default = (extractHeadings content)[i] := by
      rw [List.getD_eq_getElem?_getD, List.getElem?_eq_getElem hi]
      rfl
    constructor
    · simp [List.getElem?_eq_getElem hi]
    · simp [List.getElem?_eq_getElem hi]
  · have h1 : (List.range (extractHeadings content).length)[i]? = none := by
      rw [List.getElem?_eq_none_iff]
      simpa using Nat.le_of_not_lt hi
    have h2 : (extractHeadings content)[i]? = none := by
      rw [List.getElem?_eq_none_iff]
      exact Nat.le_of_not_lt hi
    rw [h1, h2]
    exact ⟨rfl, rfl⟩

/-- The claim C2: the headings found by the scanner, and hence the
sections built from them one for one, occur in strict document order — the
start offset of each heading is strictly below the start offset of the
next — and the sections list aligns index by index with the heading list,
matching the order in which headings occur in the source text. -/
theorem sections_strict_document_order (content : List Char) :
    (∀ (i : Nat) (a b : Heading), (extractHeadings content)[i]? = some a →
      (extractHeadings content)[i + 1]? = some b → a.startIndex < b.startIndex) ∧
    (extractSections content).length = (extractHeadings content).length ∧
    (∀ i : Nat, (extractSections content)[i]?.map Section.heading =
      (extractHeadings content)[i]?.map Heading.text) := by
  refine ⟨?_, ?_, fun i => (extractSections_getElem? content i).1⟩
  · intro i a b ha hb
    obtain ⟨hia, hga⟩ := List.getElem?_eq_some_iff.mp ha
    obtain ⟨hib, hgb⟩ := List.getElem?_eq_some_iff.mp hb
    have := List.chain'_iff_get.mp (extractHeadings_chain content) i (by omega)
    rw [List.get_eq_getElem, List.get_eq_getElem] at this
    simp only [hga, hgb] at this
    exact this
  · unfold extractSections
    simp

/-- Witness for C2: in a two-heading document the first heading's offset
is strictly below the second heading's offset, and the sections carry the
headings in the same order. -/
theorem sections_strict_document_order_witness :
    (⟨1, "Heading 1".data, 0, 11⟩ : Heading).startIndex <
      (⟨2, "Heading 2".data, 30, 42⟩ : Heading).startIndex ∧
    (extractSections "# Heading 1\n\nSome body text.\n\n## Heading 2\n\nMore text here.".data)[0]?.map
      Section.heading = some "Heading 1".data :=
  ⟨(sections_strict_document_order
      "# Heading 1\n\nSome body text.\n\n## Heading 2\n\nMore text here.".data).1
      0 ⟨1, "Heading 1".data, 0, 11⟩ ⟨2, "Heading 2".data, 30, 42⟩ (by decide) (by decide),
    by
      rw [(sections_strict_document_order
        "# Heading 1\n\nSome body text.\n\n## Heading 2\n\nMore text here.".data).2.2 0]
      decide⟩

/-- The claim C6: every heading the scanner emits has level at least 1 —
ATX matches contribute the positive count of `#` characters and Setext
matches contribute 1 or 2 — and already every single regex match carries a
positive level, so the level-0 fallback branch of
`#determineHeadingLevelFromMatch` is unreachable from any match the
heading regex produces. -/
theorem headingLevel_pos :
    (∀ (content : List Char) (h : Heading), h ∈ extractHeadings content → 1 ≤ h.level) ∧
    (∀ (abs : Nat) (cs : List Char) (h : Heading), matchAt abs cs = some h → 1 ≤ h.level) := by
  constructor
  · intro content h hm
    exact (extractHeadingsGo_ge content (content.length + 1) 0 h hm).2.2
  · intro abs cs h hm
    exact (matchAt_spec hm).2.2

/-- Witness for C6: the level of the single heading of `### x` is
positive. -/
theorem headingLevel_pos_witness :
    1 ≤ (⟨3, "x".data, 0, 5⟩ : Heading).level :=
  headingLevel_pos.1 "### x".data ⟨3, "x".data, 0, 5⟩ (by decide)

/-- Counterexample to C7 as stated: the document `#\nfoo` contains a line
consisting solely of `#` with nothing after it on that line, yet the
emitted heading's text is `foo`, not the empty string: the greedy `\s*` of
the ATX alternative crosses the newline and takes the next line as the
heading text. -/
theorem claim_C7_counterexample :
    extractHeadings "#\nfoo".data = [⟨1, "foo".data, 0, 5⟩] ∧
    "foo".data ≠ ([] : List Char) := by
  exact ⟨by decide, by decide⟩

theorem ws_not_hash {c : Char} (h : isWS c = true) : (decide (c = '#') : Bool) = false := by
  by_cases hc : c = '#'
  · subst hc
    exact absurd h (by decide)
  · simp [hc]

theorem takeWhile_hash_replicate (n : Nat) (rest : List Char)
    (hws : ∀ c ∈ rest, isWS c = true) :
    (List.replicate n '#' ++ rest).takeWhile (fun x => x = '#') =
      List.replicate n '#' := by
  induction n with
  | zero =>
    cases hr : rest with
    | nil => rfl
    | cons r t =>
      have hwr : isWS r = true := hws r (by rw [hr]; exact List.mem_cons_self r t)
      simp only [List.replicate_zero, List.nil_append, List.takeWhile_cons]
      rw [if_neg (by simp [ws_not_hash hwr])]
  | succ k ih =>
    rw [List.replicate_succ, List.cons_append, List.takeWhile_cons, if_pos (by simp), ih,
      ← List.replicate_succ]

theorem drop_replicate_append (n : Nat) (rest : List Char) :
    (List.replicate n '#' ++ rest).drop n = rest := by
  induction n with
  | zero => simp
  | succ k ih => rw [List.replicate_succ, List.cons_append, List.drop_succ_cons, ih]

theorem extractHeadingsGo_none {content : List Char} {fuel pos : Nat}
    (hf : findMatch content pos = none) :
    extractHeadingsGo content fuel pos = [] := by
  cases fuel with
  | zero => rfl
  | succ f => rw [extractHeadingsGo, hf]

/-- The claim C7 as amended: for a document consisting of a line of `#`
characters followed by nothing but whitespace, the scanner emits exactly
one heading whose level is the number of `#` characters and whose text is
empty.  When non-whitespace text follows on a later line the heading's
text is instead taken from that later line (see the counterexample), so
the empty text is guaranteed only when whitespace runs to the end of the
document. -/
theorem hashOnly_line_heading (n : Nat) (rest : List Char) (hn : 1 ≤ n)
    (hws : ∀ c ∈ rest, isWS c = true) :
    extractHeadings (List.replicate n '#' ++ rest) =
      [⟨n, [], 0, n + rest.length⟩] := by
  set content := List.replicate n '#' ++ rest with hcontent
  have hne : List.replicate n '#' ≠ ([] : List Char) := by
    obtain ⟨m, hm⟩ : ∃ m, n = m + 1 := ⟨n - 1, by omega⟩
    rw [hm, List.replicate_succ]
    simp
  have hma : matchAt 0 content = some ⟨n, [], 0, n + rest.length⟩ := by
    obtain ⟨m, hm⟩ : ∃ m, n = m + 1 := ⟨n - 1, by omega⟩
    have hcons : content = '#' :: (List.replicate m '#' ++ rest) := by
      rw [hcontent, hm, List.replicate_succ, List.cons_append]
    rw [hcons, matchAt, if_pos rfl, ← hcons, hcontent]
    simp only [takeWhile_hash_replicate n rest hws, List.length_replicate,
      drop_replicate_append n rest, List.takeWhile_eq_self_iff.mpr hws,
      List.drop_length, List.takeWhile_nil, List.length_nil, Nat.add_zero,
      Nat.zero_add]
    rw [determine_A_eq hne, List.length_replicate]
    simp only [Option.some.injEq, Heading.mk.injEq]
    exact ⟨trivial, rfl, trivial, trivial⟩
  have hlen : content.length = n + rest.length := by
    rw [hcontent, List.length_append, List.length_replicate]
  have hfind0 : findMatch content 0 = some ⟨n, [], 0, n + rest.length⟩ := by
    unfold findMatch isLineStart
    obtain ⟨m, hm⟩ : ∃ m, n = m + 1 := ⟨n - 1, by omega⟩
    have hcons : content = '#' :: (List.replicate m '#' ++ rest) := by
      rw [hcontent, hm, List.replicate_succ, List.cons_append]
    rw [List.drop_zero, hcons, findFrom, if_pos (by simp), ← hcons, hma]
  have hfind1 : findMatch content (n + rest.length) = none := by
    unfold findMatch
    rw [← hlen, List.drop_length]
    rfl
  unfold extractHeadings
  rw [hlen]
  simp only [extractHeadingsGo, hfind0]
  rw [extractHeadingsGo_none hfind1]

/-- Witness for C7 amended: the document `##` followed by a blank line and
a space yields exactly one heading of level 2 with empty text. -/
theorem hashOnly_line_heading_witness :
    extractHeadings (List.replicate 2 '#' ++ "\n \n".data) =
      [⟨2, [], 0, 5⟩] :=
  hashOnly_line_heading 2 "\n \n".data (by omega) (by decide)

/-! ## Absorption lemmas -/

theorem takeWhile_getElem_mem (p : α → Bool) :
    ∀ (l : List α) (r : Nat) (hr : r < l.length),
      (∀ s (hs : s < l.length), s ≤ r → p l[s] = true) →
      l[r] ∈ l.takeWhile p := by
  intro l
  induction l with
  | nil => intro r hr _; exact absurd hr (by simp)
  | cons a t ih =>
    intro r hr hall
    have hpa : p a = true := hall 0 (by simp) (Nat.zero_le r)
    rw [List.takeWhile_cons, if_pos hpa]
    cases r with
    | zero => exact List.mem_cons_self _ _
    | succ r' =>
      have hr' : r' < t.length := by simpa using hr
      refine List.mem_cons_of_mem _ ?_
      have := ih r' hr' fun s hs hsr =>
        hall (s + 1) (by simpa using hs) (by omega)
      simpa using this

theorem childrenOf_mem_shape {hs : List Heading} {i lvl : Nat} {p : Nat × Heading}
    (hp : p ∈ childrenOf hs i lvl) :
    i < p.1 ∧ ∃ hlt : p.1 < hs.length, hs.get ⟨p.1, hlt⟩ = p.2 ∧ lvl < p.2.level := by
  have hpred : lvl < p.2.level := by
    have := List.mem_takeWhile_imp hp
    simpa using this
  have hmem : p ∈ (hs.enum.drop (i + 1)) :=
    (List.takeWhile_sublist _).subset hp
  obtain ⟨r, hr, hget⟩ := List.mem_iff_getElem.mp hmem
  rw [List.getElem_drop] at hget
  have hlen : i + 1 + r < hs.enum.length := by
    rw [List.length_drop] at hr
    omega
  rw [List.getElem_enum] at hget
  have hlt : i + 1 + r < hs.length := by
    rw [List.enum_length] at hlen
    exact hlen
  have h1 : p.1 = i + 1 + r := by rw [← hget]
  have h2 : p.2 = hs[i + 1 + r] := by rw [← hget]
  refine ⟨by omega, ?_, ?_, hpred⟩
  · rw [h1]
    exact hlt
  · rw [List.get_eq_getElem]
    simp only [h1, h2]

theorem childrenOf_mem_of_range {hs : List Heading} {i k lvl : Nat}
    (hik : i < k) (hk : k < hs.length)
    (hall : ∀ j (hj : j < hs.length), i < j → j ≤ k → lvl < (hs.get ⟨j, hj⟩).level) :
    (k, hs.get ⟨k, hk⟩) ∈ childrenOf hs i lvl := by
  unfold childrenOf
  have hlen : k - (i + 1) < (hs.enum.drop (i + 1)).length := by
    rw [List.length_drop, List.enum_length]
    omega
  have hgr : (hs.enum.drop (i + 1))[k - (i + 1)] = (k, hs.get ⟨k, hk⟩) := by
    rw [List.getElem_drop]
    have hke : i + 1 + (k - (i + 1)) = k := by omega
    simp only [hke]
    rw [List.getElem_enum, List.get_eq_getElem]
  have := takeWhile_getElem_mem (fun p => decide (lvl < p.2.level))
    (hs.enum.drop (i + 1)) (k - (i + 1)) hlen ?_
  · rw [hgr] at this
    exact this
  · intro s hsl hsr
    have hsg : (hs.enum.drop (i + 1))[s] = (i + 1 + s, hs[i + 1 + s]) := by
      rw [List.getElem_drop, List.getElem_enum]
    have hjl : i + 1 + s < hs.length := by
      rw [List.length_drop, List.enum_length] at hsl
      omega
    rw [hsg]
    simp only [decide_eq_true_eq]
    have := hall (i + 1 + s) hjl (by omega) (by omega)
    rw [List.get_eq_getElem] at this
    exact this

theorem getLast?_append_right {v : List α} (x : List α) (hv : v ≠ []) :
    (x ++ v).getLast? = v.getLast? := by
  rw [List.getLast?_append]
  cases hl : v.getLast? with
  | none => exact absurd (List.getLast?_eq_none_iff.mp hl) hv
  | some c => rfl

theorem rawBodyAt_eq_trim {content : List Char} {hs : List Heading} {i : Nat}
    (h : rawBodyAt content hs i ≠ []) :
    ∃ hd, hs.get? i = some hd ∧ rawBodyAt content hs i =
      trim (sliceList content hd.endIndex (specBodyEnd content hs i)) := by
  cases hg : hs.get? i with
  | none =>
    have : rawBodyAt content hs i = [] := by
      unfold rawBodyAt
      rw [hg]
    exact absurd this h
  | some hd =>
    refine ⟨hd, rfl, ?_⟩
    unfold rawBodyAt
    rw [hg]

theorem rawBodyAt_head_not_ws {content : List Char} {hs : List Heading} {i : Nat}
    (h : rawBodyAt content hs i ≠ []) :
    ∃ c, (rawBodyAt content hs i).head? = some c ∧ isWS c = false := by
  obtain ⟨hd, _, he⟩ := rawBodyAt_eq_trim h
  rw [he] at h ⊢
  cases hh : (trim (sliceList content hd.endIndex (specBodyEnd content hs i))).head? with
  | none => exact absurd (List.head?_eq_none_iff.mp hh) h
  | some c => exact ⟨c, rfl, head?_trim_false hh⟩

theorem rawBodyAt_getLast_not_ws {content : List Char} {hs : List Heading} {i : Nat}
    (h : rawBodyAt content hs i ≠ []) :
    ∃ c, (rawBodyAt content hs i).getLast? = some c ∧ isWS c = false := by
  obtain ⟨hd, _, he⟩ := rawBodyAt_eq_trim h
  rw [he] at h ⊢
  cases hh : (trim (sliceList content hd.endIndex (specBodyEnd content hs i))).getLast? with
  | none => exact absurd (List.getLast?_eq_none_iff.mp hh) h
  | some c => exact ⟨c, rfl, getLast?_trim_false hh⟩

theorem renderChild_getLast {content : List Char} {hs : List Heading}
    (p : Nat × Heading) (hb : rawBodyAt content hs p.1 ≠ []) :
    (renderChild content hs p).getLast? = (rawBodyAt content hs p.1).getLast? := by
  unfold renderChild
  have h1 : '\n' :: '\n' :: '#' :: '#' :: ' ' ::
      (p.2.text ++ '\n' :: '\n' :: rawBodyAt content hs p.1) =
      (['\n', '\n', '#', '#', ' '] ++ p.2.text ++ ['\n', '\n']) ++
        rawBodyAt content hs p.1 := by
    simp
  rw [h1]
  exact getLast?_append_right _ hb

theorem flatten_render_getLast {content : List Char} {hs : List Heading}
    {children : List (Nat × Heading)}
    (hch : ∀ p ∈ children, rawBodyAt content hs p.1 ≠ []) (hne : children ≠ []) :
    ∃ c, ((children.map (renderChild content hs)).flatten).getLast? = some c ∧
      isWS c = false := by
  rcases List.eq_nil_or_concat children with rfl | ⟨cs, p, rfl⟩
  · exact absurd rfl hne
  · have hpmem : p ∈ cs.concat p := by
      rw [List.concat_eq_append]
      exact List.mem_append_right _ (List.mem_cons_self _ _)
    have hb : rawBodyAt content hs p.1 ≠ [] := hch p hpmem
    obtain ⟨c, hc, hcw⟩ := rawBodyAt_getLast_not_ws hb
    refine ⟨c, ?_, hcw⟩
    rw [List.concat_eq_append, List.map_append, List.flatten_append]
    have hrp : renderChild content hs p ≠ [] := by
      unfold renderChild
      simp
    rw [getLast?_append_right _ (by simpa using hrp)]
    simp only [List.map_cons, List.map_nil, List.flatten_cons, List.flatten_nil,
      List.append_nil]
    rw [renderChild_getLast p hb]
    exact hc

theorem trim_parent_body {content : List Char} {hs : List Heading} {i : Nat}
    {children : List (Nat × Heading)}
    (hu : rawBodyAt content hs i ≠ [])
    (hch : ∀ p ∈ children, rawBodyAt content hs p.1 ≠ []) :
    trim (rawBodyAt content hs i ++ (children.map (renderChild content hs)).flatten) =
      rawBodyAt content hs i ++ (children.map (renderChild content hs)).flatten := by
  obtain ⟨c, hc, hcw⟩ := rawBodyAt_head_not_ws hu
  rcases hv : (children.map (renderChild content hs)).flatten with _ | ⟨a, t⟩
  · rw [List.append_nil]
    obtain ⟨d, hd, hdw⟩ := rawBodyAt_getLast_not_ws hu
    have h1 := trimLeft_append_of_head ([] : List Char) hc hcw
    rw [List.append_nil] at h1
    unfold trim
    rw [h1]
    have h2 := trimRight_append_of_getLast ([] : List Char) hd hdw
    rw [List.nil_append] at h2
    exact h2
  · have hchne : children ≠ [] := by
      intro he
      rw [he] at hv
      simp at hv
    obtain ⟨d, hd, hdw⟩ := flatten_render_getLast hch hchne
    unfold trim
    rw [trimLeft_append_of_head _ hc hcw]
    refine trimRight_append_of_getLast _ ?_ hdw
    rw [← hv]
    exact hd

theorem extractSectionsAbsorb_getElem? (content : List Char) (i : Nat)
    (hi : i < (extractHeadings content).length) :
    (extractSectionsAbsorb content)[i]? = some
      ⟨((extractHeadings content).get ⟨i, hi⟩).level,
       ((extractHeadings content).get ⟨i, hi⟩).text,
       trim (rawBodyAt content (extractHeadings content) i ++
         ((childrenOf (extractHeadings content) i
            ((extractHeadings content).get ⟨i, hi⟩).level).map
              (renderChild content (extractHeadings content))).flatten)⟩ := by
  unfold extractSectionsAbsorb
  rw [List.getElem?_map, List.getElem?_range hi]
  have hg : (extractHeadings content).getD i default =
      (extractHeadings content).get ⟨i, hi⟩ := by
    rw [List.getD_eq_getElem?_getD, List.getElem?_eq_getElem hi, List.get_eq_getElem]
    rfl
  simp only [Option.map, hg]

/-- The claim C1: a heading immediately followed by deeper headings yields
a section whose body carries, after its own raw body, the rendered block
of each such deeper child — a `## ` marker, the child's heading text, a
blank line and the child's raw body — while each child also appears as its
own entry later in the sections list; and parsing the two-heading example
document yields exactly the two stated sections, the parent body
containing the rendered child.  The child blocks and the parent body are
non-empty in the general statement so that the final trim leaves the
concatenation intact. -/
theorem absorption_parent_body :
    (extractSectionsAbsorb
        "# Heading 1\n\nSome body text.\n\n## Heading 2\n\nMore text here.".data =
      [⟨1, "Heading 1".data, "Some body text.\n\n## Heading 2\n\nMore text here.".data⟩,
       ⟨2, "Heading 2".data, "More text here.".data⟩]) ∧
    (∀ (content : List Char) (hs : List Heading) (i k : Nat)
      (hhs : hs = extractHeadings content)
      (hik : i < k) (hk : k < hs.length),
      (∀ j (hj : j < hs.length), i < j → j ≤ k →
        (hs.get ⟨i, Nat.lt_trans hik hk⟩).level < (hs.get ⟨j, hj⟩).level) →
      rawBodyAt content hs i ≠ [] →
      (∀ j (hj : j < hs.length), i < j →
        (hs.get ⟨i, Nat.lt_trans hik hk⟩).level < (hs.get ⟨j, hj⟩).level →
        rawBodyAt content hs j ≠ []) →
      (∃ parSec bodyTail, (extractSectionsAbsorb content)[i]? = some parSec ∧
        parSec.body = rawBodyAt content hs i ++ bodyTail ∧
        ('#' :: '#' :: ' ' :: ((hs.get ⟨k, hk⟩).text ++
          '\n' :: '\n' :: rawBodyAt content hs k)) <:+: bodyTail) ∧
      (∃ childSec, (extractSectionsAbsorb content)[k]? = some childSec ∧
        childSec.heading = (hs.get ⟨k, hk⟩).text ∧
        childSec.level = (hs.get ⟨k, hk⟩).level)) := by
  constructor
  · decide
  · intro content hs i k hhs hik hk hlev hpar hch
    subst hhs
    set hs := extractHeadings content with hhs
    have hi : i < hs.length := Nat.lt_trans hik hk
    set lvl := (hs.get ⟨i, hi⟩).level with hlvl
    set children := childrenOf hs i lvl with hchildren
    have hchAll : ∀ p ∈ children, rawBodyAt content hs p.1 ≠ [] := by
      intro p hp
      obtain ⟨hpi, hplt, hpget, hplev⟩ := childrenOf_mem_shape hp
      exact hch p.1 hplt hpi (by rw [hpget]; exact hplev)
    constructor
    · refine ⟨_, (children.map (renderChild content hs)).flatten,
        extractSectionsAbsorb_getElem? content i hi, ?_, ?_⟩
      · exact trim_parent_body hpar hchAll
      · have hmem : (k, hs.get ⟨k, hk⟩) ∈ children :=
          childrenOf_mem_of_range hik hk hlev
        obtain ⟨s, t, hst⟩ := List.append_of_mem hmem
        rw [hst, List.map_append, List.map_cons, List.flatten_append,
          List.flatten_cons]
        refine ⟨(s.map (renderChild content hs)).flatten ++ ['\n', '\n'],
          (t.map (renderChild content hs)).flatten, ?_⟩
        unfold renderChild
        simp [List.append_assoc]
    · exact ⟨_, extractSectionsAbsorb_getElem? content k hk, rfl, rfl⟩

/-- Witness for C1's general part: in the example document, heading 0 of
level 1 is immediately followed by heading 1 of level 2, so the first
section's body carries the rendered `## Heading 2` block after its own
text, and the child is its own later entry. -/
theorem absorption_parent_body_witness :
    (∃ parSec bodyTail,
      (extractSectionsAbsorb
        "# Heading 1\n\nSome body text.\n\n## Heading 2\n\nMore text here.".data)[0]? =
          some parSec ∧
      parSec.body = rawBodyAt
        "# Heading 1\n\nSome body text.\n\n## Heading 2\n\nMore text here.".data
        (extractHeadings
          "# Heading 1\n\nSome body text.\n\n## Heading 2\n\nMore text here.".data) 0 ++
          bodyTail ∧
      ('#' :: '#' :: ' ' ::
        (((extractHeadings
            "# Heading 1\n\nSome body text.\n\n## Heading 2\n\nMore text here.".data).get
              ⟨1, by decide⟩).text ++
          '\n' :: '\n' :: rawBodyAt
            "# Heading 1\n\nSome body text.\n\n## Heading 2\n\nMore text here.".data
            (extractHeadings
              "# Heading 1\n\nSome body text.\n\n## Heading 2\n\nMore text here.".data) 1))
        <:+: bodyTail) ∧
    (∃ childSec,
      (extractSectionsAbsorb
        "# Heading 1\n\nSome body text.\n\n## Heading 2\n\nMore text here.".data)[1]? =
          some childSec ∧
      childSec.heading = ((extractHeadings
        "# Heading 1\n\nSome body text.\n\n## Heading 2\n\nMore text here.".data).get
          ⟨1, by decide⟩).text ∧
      childSec.level = ((extractHeadings
        "# Heading 1\n\nSome body text.\n\n## Heading 2\n\nMore text here.".data).get
          ⟨1, by decide⟩).level) :=
  absorption_parent_body.2
    "# Heading 1\n\nSome body text.\n\n## Heading 2\n\nMore text here.".data
    (extractHeadings
      "# Heading 1\n\nSome body text.\n\n## Heading 2\n\nMore text here.".data)
    0 1 rfl (by decide) (by decide)
    (by decide) (by decide) (by decide)

/-! ## Changelog range extraction lemmas -/

theorem collectUpdates_skip {startV endV : List Char} (pre rest : List Section)
    (hpre : ∀ s ∈ pre, containsSub s.heading startV = false ∧
      containsSub s.heading endV = false) :
    collectUpdates startV endV (pre ++ rest) false =
      collectUpdates startV endV rest false := by
  induction pre with
  | nil => rfl
  | cons sec pre' ih =>
    obtain ⟨h1, h2⟩ := hpre sec (List.mem_cons_self _ _)
    rw [List.cons_append, collectUpdates]
    simp only [h1, h2, Bool.or_false, if_neg (Bool.false_ne_true), if_false]
    simpa using ih fun s hs => hpre s (List.mem_cons_of_mem _ hs)

theorem collectUpdates_through {startV endV : List Char} (mid rest : List Section)
    (hmid : ∀ s ∈ mid, containsSub s.heading endV = false) :
    collectUpdates startV endV (mid ++ rest) true =
      mid ++ collectUpdates startV endV rest true := by
  induction mid with
  | nil => rfl
  | cons sec mid' ih =>
    have h2 := hmid sec (List.mem_cons_self _ _)
    rw [List.cons_append, collectUpdates]
    simp only [Bool.true_or, h2, if_true, if_neg (Bool.false_ne_true)]
    rw [ih fun s hs => hmid s (List.mem_cons_of_mem _ hs)]
    rfl

/-- The claim C3: on a section list where, after a prefix mentioning
neither label, a section containing `2.2.1` is followed by sections that do
not contain `2.2.0` and then a section that does,
`getUpdatesBetweenVersions "2.2.1" "2.2.0"` returns exactly the span from
the `2.2.1` section to the `2.2.0` section, in document order, inclusive
of both endpoints, regardless of the levels of the sections in between. -/
theorem getUpdatesBetweenVersions_range (pre mid post : List Section) (a c : Section)
    (hpre : ∀ s ∈ pre, containsSub s.heading "2.2.1".data = false ∧
      containsSub s.heading "2.2.0".data = false)
    (ha1 : containsSub a.heading "2.2.1".data = true)
    (ha2 : containsSub a.heading "2.2.0".data = false)
    (hmid : ∀ s ∈ mid, containsSub s.heading "2.2.0".data = false)
    (hc : containsSub c.heading "2.2.0".data = true) :
    getUpdatesBetweenVersions (pre ++ a :: (mid ++ c :: post))
      "2.2.1".data "2.2.0".data = .ok (a :: (mid ++ [c])) := by
  have hcol : collectUpdates "2.2.1".data "2.2.0".data
      (pre ++ a :: (mid ++ c :: post)) false = a :: (mid ++ [c]) := by
    rw [collectUpdates_skip pre _ hpre, collectUpdates]
    simp only [ha1, ha2, Bool.false_or, if_true, if_neg (Bool.false_ne_true)]
    rw [collectUpdates_through mid _ hmid, collectUpdates]
    simp [hc]
  have hord : semverLt "2.2.1".data "2.2.0".data = false := by decide
  simp only [getUpdatesBetweenVersions, hord, Bool.false_eq_true, if_false, hcol]
  simp

/-- Witness for C3: a concrete changelog shaped like the repository's
`mock-changelog.md`, with the three sections `[2.2.1] - 2024-08-25`,
`Changed`, `[2.2.0] - 2024-08-20` returned inclusively. -/
theorem getUpdatesBetweenVersions_range_witness :
    getUpdatesBetweenVersions
      ([⟨1, "Changelog".data, [] ⟩,
        ⟨2, "[2.3.0] - 2024-09-10".data, [] ⟩,
        ⟨3, "Added".data, "- Implemented new logging system.".data⟩,
        ⟨3, "Fixed".data, "- Resolved issue with session timeout handling.".data⟩] ++
       ⟨2, "[2.2.1] - 2024-08-25".data, "## Changed\n\n- Minor update to UI layout.".data⟩ ::
       ([⟨3, "Changed".data, "- Minor update to UI layout.".data⟩] ++
        ⟨2, "[2.2.0] - 2024-08-20".data, "## Added\n\n- Introduced caching mechanism for API requests.".data⟩ ::
        [⟨2, "[2.1.0] - 2024-05-01".data, [] ⟩]))
      "2.2.1".data "2.2.0".data =
    .ok (⟨2, "[2.2.1] - 2024-08-25".data, "## Changed\n\n- Minor update to UI layout.".data⟩ ::
      ([⟨3, "Changed".data, "- Minor update to UI layout.".data⟩] ++
       [⟨2, "[2.2.0] - 2024-08-20".data, "## Added\n\n- Introduced caching mechanism for API requests.".data⟩])) :=
  getUpdatesBetweenVersions_range _ _ _ _ _ (by decide) (by decide) (by decide)
    (by decide) (by decide)

theorem collectUpdates_empty_iff (startV endV : List Char) :
    ∀ ss : List Section,
      (collectUpdates startV endV ss false = [] ↔
        startUnreached startV endV ss = true) := by
  intro ss
  induction ss with
  | nil => simp [collectUpdates, startUnreached]
  | cons sec rest ih =>
    rw [collectUpdates, startUnreached]
    by_cases h1 : containsSub sec.heading startV = true
    · rw [if_pos h1]
      simp only [h1, Bool.false_or, if_true]
      constructor
      · intro h
        by_cases h2 : containsSub sec.heading endV = true
        · rw [if_pos h2] at h
          exact absurd h (by simp)
        · rw [if_neg h2] at h
          exact absurd h (by simp)
      · intro h
        exact absurd h (by simp)
    · have h1' : containsSub sec.heading startV = false := by
        simpa using h1
      rw [if_neg h1]
      simp only [h1', Bool.false_or, if_neg (Bool.false_ne_true)]
      by_cases h2 : containsSub sec.heading endV = true
      · rw [if_pos h2, if_pos h2]
        simp
      · rw [if_neg h2, if_neg h2]
        simpa using ih

/-- The claim C4 as amended: for order-normalized labels the call fails —
with the error message naming both versions — exactly when the scan
terminates (at the first end-label section or at the end of the list)
without ever having seen a section whose heading contains the start label;
in particular it fails when no heading contains the start label at all.
When the start label matches but the end label never occurs afterward, the
scan runs to the end of the list and the collected tail is returned as a
success, not an error. -/
theorem getUpdatesBetweenVersions_error_iff (ss : List Section)
    (startV endV : List Char) (hord : semverLt startV endV = false) :
    getUpdatesBetweenVersions ss startV endV =
      .error ("No updates found between versions ".data ++ startV ++
        " and ".data ++ endV) ↔
    startUnreached startV endV ss = true := by
  simp only [getUpdatesBetweenVersions, hord, Bool.false_eq_true, if_false]
  by_cases hu : collectUpdates startV endV ss false = []
  · rw [hu]
    simp only [List.isEmpty_nil]
    rw [if_pos trivial]
    exact iff_of_true rfl ((collectUpdates_empty_iff startV endV ss).mp hu)
  · rw [if_neg (by simpa [List.isEmpty_iff] using hu)]
    constructor
    · intro h
      exact absurd h (by simp)
    · intro h
      exact absurd ((collectUpdates_empty_iff startV endV ss).mpr h) hu

/-- Witness for C4 amended: on a changelog whose headings lack `3.0.0`,
`getUpdatesBetweenVersions "3.0.0" "2.1.0"` fails with the error message
naming both versions. -/
theorem getUpdatesBetweenVersions_error_iff_witness :
    getUpdatesBetweenVersions
      [⟨1, "Changelog".data, [] ⟩,
       ⟨2, "[2.2.1] - 2024-08-25".data, "## Changed\n\n- Minor update to UI layout.".data⟩,
       ⟨2, "[2.1.0] - 2024-05-01".data, "body".data⟩]
      "3.0.0".data "2.1.0".data =
    .error ("No updates found between versions ".data ++ "3.0.0".data ++
      " and ".data ++ "2.1.0".data) :=
  (getUpdatesBetweenVersions_error_iff
    [⟨1, "Changelog".data, [] ⟩,
     ⟨2, "[2.2.1] - 2024-08-25".data, "## Changed\n\n- Minor update to UI layout.".data⟩,
     ⟨2, "[2.1.0] - 2024-05-01".data, "body".data⟩]
    "3.0.0".data "2.1.0".data (by decide)).mpr (by decide)

/-- Counterexample to C4 as stated: on a changelog with a `2.2.1` heading
and no heading containing `2.2.0`, the scan reaches the end of the
sections without ever matching the end label, yet the call succeeds with a
non-empty result instead of returning empty and failing. -/
theorem claim_C4_counterexample :
    getUpdatesBetweenVersions
      [⟨2, "[2.2.1] - 2024-08-25".data, "body".data⟩]
      "2.2.1".data "2.2.0".data =
      .ok [⟨2, "[2.2.1] - 2024-08-25".data, "body".data⟩] ∧
    containsSub "[2.2.1] - 2024-08-25".data "2.2.0".data = false :=
  ⟨rfl, by decide⟩

end Mddoc
